import Mathlib

/-!
Shallow embedding of `gaphor/codegen/profile_coder.py`.

A loaded Gaphor model is a list of `UMLClass` values; object identity of the
Python `UML.Class` elements is modelled by the `id` field, and references
between elements (`cls.general`, `a.association.ownedEnd.class_`) are ids
resolved against the full model list.  File output is modelled as a list of
structured `Line` values (one per `f.write` of a logical line group), so the
textual order of the generated file is the order of the list.
-/

namespace ProfileCoder

/-- A UML property (`UML.Property`): the parts of it read by the generator.
`name` and `typeValue` may be absent (`None` in Python); `isAssociation`
says whether the property takes the `it.association` branch of
`cls.attribute[...]`; `oppositeId` models `a.association.ownedEnd.class_`,
the id of the class at the opposite end of the owning association. -/
structure ModelAttribute where
  name : Option String
  typeValue : Option String
  isAssociation : Bool
  oppositeId : Option Nat
deriving DecidableEq, Repr

/-- A UML class (`UML.Class`): `id` models Python object identity,
`general` the ids of `cls.general` (generalization targets, model order),
`attributes` models `cls.attribute`, `ownedOperation` the textual form of
each owned operation. -/
structure UMLClass where
  id : Nat
  name : String
  general : List Nat
  attributes : List ModelAttribute
  ownedOperation : List String
deriving DecidableEq, Repr

/-- Python `str.lower`: lower-case every character.  (Stated on the
character list so the kernel can evaluate it; it is the semantics of
`String.toLower`, i.e. `s.map Char.toLower`.) -/
def lowerStr (s : String) : String :=
  ⟨s.data.map Char.toLower⟩

/-- Python `str.endswith`: the argument is a suffix of the string.
(Stated on the character list so the kernel can evaluate it.) -/
def endsWithStr (s suffx : String) : Bool :=
  suffx.data.isSuffixOf s.data

/-- `type_converter` from the source: convert association types for the
Python data model. -/
def type_converter (a : ModelAttribute) : Option String :=
  match a.typeValue with
  | none => none
  | some type_value =>
    if lowerStr type_value == "boolean" then some "int"
    else if lowerStr type_value == "integer" || lowerStr type_value == "unlimitednatural" then
      some "int"
    else if lowerStr type_value == "string" then some "str"
    else if endsWithStr type_value "Kind" || endsWithStr type_value "Sort" then none
    else some type_value

/-- One logical line group of the generated file. -/
inductive Line where
  | header
  | importLine (clsName : String)
  | classDef (clsName : String) (parents : List String)
  | attrLine (attrName : Option String) (ty : Option String)
  | relationLine (attrName : Option String) (ty : Option String)
  | opLine (op : String)
  | passLine
deriving DecidableEq, Repr

/-- `write_attributes` from the source: one `attribute[...]` line per
non-association property, one `relation_one[...]` line per association
property whose name is truthy and not `baseClass`, one line per owned
operation, and a single `pass` line when nothing was written. -/
def write_attributes (cls : UMLClass) : List Line :=
  let plain := (cls.attributes.filter (fun a => !a.isAssociation)).map
    (fun a => Line.attrLine a.name (type_converter a))
  let assoc := (cls.attributes.filter (fun a => a.isAssociation)).filterMap
    (fun a =>
      match a.name with
      | some n => if !n.isEmpty && n != "baseClass" then
          some (Line.relationLine a.name (type_converter a))
        else none
      | none => none)
  let ops := cls.ownedOperation.map Line.opLine
  let ls := plain ++ assoc ++ ops
  if ls.isEmpty then [Line.passLine] else ls

/-- `trees[cls]`: dictionary lookup in the class tree (the tree is an
association list in build order; in `generate` every looked-up class is a
key, so the default `[]` branch is never reached there). -/
def treeLookup (trees : List (UMLClass × List UMLClass)) (cls : UMLClass) : List UMLClass :=
  match trees.find? (fun p => p.fst == cls) with
  | some p => p.snd
  | none => []

/-- The `base_classes` name list used by `write_class_signature`. -/
def baseNames (trees : List (UMLClass × List UMLClass)) (cls : UMLClass) : List String :=
  (treeLookup trees cls).map (fun c => c.name)

/-- `write_class_signature` from the source: returns whether the class was
written, together with the lines it wrote.  With base classes, the class is
written only when every base-class name is already in `cls_written`;
otherwise `False` is returned with nothing written. -/
def write_class_signature (trees : List (UMLClass × List UMLClass)) (cls : UMLClass)
    (cls_written : List String) : Bool × List Line :=
  let base_classes := baseNames trees cls
  if !base_classes.isEmpty then
    if base_classes.all (fun n => cls_written.contains n) then
      (true, Line.classDef cls.name base_classes :: write_attributes cls)
    else
      (false, [])
  else
    (true, Line.classDef cls.name base_classes :: write_attributes cls)

/-- `filter_uml_classes` from the source: the returned value is the list of
classes whose name is in `dir(UML.uml)` (modelled by `uml_directory`). -/
def filter_uml_classes (uml_directory : List String) (classes : List UMLClass) :
    List UMLClass :=
  classes.filter (fun cls => uml_directory.contains cls.name)

/-- Resolve a model-element id to its class, modelling a Python object
reference into the element factory. -/
def resolve (model : List UMLClass) (i : Nat) : Option UMLClass :=
  model.find? (fun c => c.id == i)

/-- The classes `cls.general` refers to. -/
def generalClasses (model : List UMLClass) (cls : UMLClass) : List UMLClass :=
  cls.general.filterMap (resolve model)

/-- `get_class_extensions` from the source: the meta classes connected with
extensions — for each association property named `baseClass`, the class at
the opposite end of its association. -/
def get_class_extensions (model : List UMLClass) (cls : UMLClass) : List UMLClass :=
  (cls.attributes.filter (fun a => a.isAssociation)).filterMap
    (fun a => if a.name == some "baseClass" then a.oppositeId.bind (resolve model) else none)

/-- `create_class_trees` from the source: for each class, its generalization
targets followed by its extension meta classes. -/
def create_class_trees (model : List UMLClass) (classes : List UMLClass) :
    List (UMLClass × List UMLClass) :=
  classes.map (fun cls => (cls, generalClasses model cls ++ get_class_extensions model cls))

/-- `create_referenced` from the source: every class that occurs in some
class's generalization or extension list (a set in Python; only membership
is ever used). -/
def create_referenced (model : List UMLClass) (classes : List UMLClass) : List UMLClass :=
  classes.flatMap (fun cls => generalClasses model cls ++ get_class_extensions model cls)

/-- `find_root_nodes` from the source: keys of the tree whose parent list is
empty and which are referenced by others, in tree order. -/
def find_root_nodes (trees : List (UMLClass × List UMLClass)) (referenced : List UMLClass) :
    List UMLClass :=
  (trees.filter (fun p => p.snd.isEmpty && referenced.contains p.fst)).map (fun p => p.fst)

/-- The neighbor computation inside `breadth_first_search`: all keys whose
parent list contains `node`, in tree order. -/
def neighborsOf (trees : List (UMLClass × List UMLClass)) (node : UMLClass) : List UMLClass :=
  (trees.filter (fun p => p.snd.contains node)).map (fun p => p.fst)

/-- The loop of `breadth_first_search`, with explicit fuel (the Python loop
terminates because each node is explored at most once; the fuel chosen in
`breadth_first_search` below exceeds the total number of enqueue
operations, so it is never exhausted).  `explored` is accumulated in
reverse and restored on return. -/
def bfsAux (trees : List (UMLClass × List UMLClass)) :
    Nat → List UMLClass → List UMLClass → List UMLClass
  | 0, _, explored => explored.reverse
  | _ + 1, [], explored => explored.reverse
  | fuel + 1, node :: queue, explored =>
    if explored.contains node then bfsAux trees fuel queue explored
    else bfsAux trees fuel (queue ++ neighborsOf trees node) (node :: explored)

/-- `breadth_first_search` from the source. -/
def breadth_first_search (trees : List (UMLClass × List UMLClass))
    (root_nodes : List UMLClass) : List UMLClass :=
  bfsAux trees (root_nodes.length + trees.length * trees.length + 1) root_nodes []

/-- The first emission loop of `generate`: walk the BFS order; a class whose
name is already written is skipped; a written class adds its name to
`cls_written`; a refused class is appended to the deferred list.  Returns
the final written set, the deferred list and the lines written. -/
def passOne (trees : List (UMLClass × List UMLClass)) :
    List UMLClass → List String → List String × List UMLClass × List Line
  | [], cls_written => (cls_written, [], [])
  | cls :: rest, cls_written =>
    if cls_written.contains cls.name then
      passOne trees rest cls_written
    else
      let w := write_class_signature trees cls cls_written
      if w.fst then
        let r := passOne trees rest (cls.name :: cls_written)
        (r.1, r.2.1, w.snd ++ r.2.2)
      else
        let r := passOne trees rest cls_written
        (r.1, cls :: r.2.1, r.2.2)

/-- The second (deferred) emission loop of `generate`: each deferred class
is passed to `write_class_signature` against the unmodified written set;
the boolean result is discarded and `cls_written` is never extended. -/
def passTwo (trees : List (UMLClass × List UMLClass)) (classes_deferred : List UMLClass)
    (cls_written : List String) : List Line :=
  classes_deferred.flatMap (fun cls => (write_class_signature trees cls cls_written).snd)

/-- The runtime error `generate` can raise after the output file has been
opened: `cls.name[0]` on an empty class name (`IndexError`). -/
inductive GenError where
  | indexError
deriving DecidableEq, Repr

/-- The observable outcome of `generate`: whether it returned or raised,
the contents of the output file at that point (the destination file is
opened and truncated before anything else, so it always exists), and the
final values of the `cls_written` / `classes_deferred` locals. -/
structure GenResult where
  result : Except GenError Unit
  fileLines : List Line
  written : List String
  deferred : List UMLClass
deriving Repr

/-- `classes` after the tilde filter of `generate`
(`cls.name[0] != "~"`). -/
def classesOf (model : List UMLClass) : List UMLClass :=
  model.filter (fun cls => cls.name.front != '~')

/-- `trees` as computed by `generate`. -/
def treesOf (model : List UMLClass) : List (UMLClass × List UMLClass) :=
  create_class_trees model (classesOf model)

/-- `referenced` as computed by `generate`. -/
def referencedOf (model : List UMLClass) : List UMLClass :=
  create_referenced model (classesOf model)

/-- `root_nodes` as computed by `generate`. -/
def rootsOf (model : List UMLClass) : List UMLClass :=
  find_root_nodes (treesOf model) (referencedOf model)

/-- `uml_classes` as computed by `generate`. -/
def umlClassesOf (uml_directory : List String) (model : List UMLClass) : List UMLClass :=
  filter_uml_classes uml_directory (classesOf model)

/-- The import lines written for the UML classes. -/
def importsOf (uml_directory : List String) (model : List UMLClass) : List Line :=
  (umlClassesOf uml_directory model).map (fun cls => Line.importLine cls.name)

/-- `cls_written` after the import loop. -/
def writtenInit (uml_directory : List String) (model : List UMLClass) : List String :=
  (umlClassesOf uml_directory model).map (fun cls => cls.name)

/-- `classes_found` as computed by `generate`. -/
def foundOf (model : List UMLClass) : List UMLClass :=
  breadth_first_search (treesOf model) (rootsOf model)

/-- The state after the first emission loop of `generate`. -/
def passOneOf (uml_directory : List String) (model : List UMLClass) :
    List String × List UMLClass × List Line :=
  passOne (treesOf model) (foundOf model) (writtenInit uml_directory model)

/-- The lines written by the deferred loop of `generate`. -/
def passTwoOf (uml_directory : List String) (model : List UMLClass) : List Line :=
  passTwo (treesOf model) (passOneOf uml_directory model).2.1
    (passOneOf uml_directory model).1

/-- `generate` from the source (with model loading factored out: the loaded
element list is the input).  The output file is opened with mode `"w"` —
created or truncated — and the header written before any graph work; the
tilde filter then indexes `cls.name[0]`, which raises on an empty name,
leaving the header-only partial file behind. -/
def generateModel (uml_directory : List String) (model : List UMLClass) : GenResult :=
  if model.any (fun cls => cls.name.isEmpty) then
    { result := Except.error GenError.indexError
      fileLines := [Line.header]
      written := []
      deferred := [] }
  else
    { result := Except.ok ()
      fileLines := Line.header ::
        (importsOf uml_directory model ++ (passOneOf uml_directory model).2.2 ++
          passTwoOf uml_directory model)
      written := (passOneOf uml_directory model).1
      deferred := (passOneOf uml_directory model).2.1 }

/-! ### Derived notions used to state the verified properties -/

/-- The names of the class definitions among a list of output lines. -/
def classDefNames (ls : List Line) : List String :=
  ls.filterMap (fun l =>
    match l with
    | Line.classDef n _ => some n
    | _ => none)

/-- The names of the import lines among a list of output lines. -/
def importNames (ls : List Line) : List String :=
  ls.filterMap (fun l =>
    match l with
    | Line.importLine n => some n
    | _ => none)

/-- `true` when a line neither defines nor imports a name. -/
def neutralLine : Line → Bool
  | Line.importLine _ => false
  | Line.classDef _ _ => false
  | _ => true

/-- Walk a list of output lines, accumulating the names defined so far
(imports and class definitions), and check that every class definition
lists only parents whose names were defined strictly earlier. -/
def parentsPrecedeAux (seen : List String) : List Line → Bool
  | [] => true
  | Line.importLine n :: rest => parentsPrecedeAux (n :: seen) rest
  | Line.classDef n ps :: rest =>
    ps.all (fun p => seen.contains p) && parentsPrecedeAux (n :: seen) rest
  | _ :: rest => parentsPrecedeAux seen rest

/-- Every class definition's parent names are defined (imported or defined
as a class) strictly earlier in the line list. -/
def parentsPrecede (ls : List Line) : Bool :=
  parentsPrecedeAux [] ls

/-- The names accumulated by `parentsPrecedeAux` while walking `ls`. -/
def seenAfter (seen : List String) : List Line → List String
  | [] => seen
  | Line.importLine n :: rest => seenAfter (n :: seen) rest
  | Line.classDef n _ :: rest => seenAfter (n :: seen) rest
  | _ :: rest => seenAfter seen rest

/-- The combined parent list of a class: generalization targets followed by
extension meta classes (the value stored for it by `create_class_trees`). -/
def parentsOfIn (model : List UMLClass) (cls : UMLClass) : List UMLClass :=
  generalClasses model cls ++ get_class_extensions model cls

/-- All ancestors of a class reachable through at most `n + 1` parent
edges. -/
def ancestorsUpTo (model : List UMLClass) : Nat → UMLClass → List UMLClass
  | 0, cls => parentsOfIn model cls
  | n + 1, cls =>
    parentsOfIn model cls ++ (parentsOfIn model cls).flatMap (ancestorsUpTo model n)

/-- The inheritance graph of the model is acyclic: no class is its own
ancestor. -/
def acyclicModel (model : List UMLClass) : Bool :=
  model.all (fun cls => !(ancestorsUpTo model model.length cls).contains cls)

/-! ### Concrete models used as witnesses and counterexamples -/

/-- Root class `R` of the chain model. -/
def chainR : UMLClass := ⟨0, "R", [], [], []⟩

/-- `A` generalizes `R`. -/
def chainA : UMLClass := ⟨1, "A", [0], [], []⟩

/-- `D` generalizes `R` and `B`; it is discovered by the traversal before
`B` and therefore deferred. -/
def chainD : UMLClass := ⟨2, "D", [0, 3], [], []⟩

/-- `B` generalizes `A`. -/
def chainB : UMLClass := ⟨3, "B", [1], [], []⟩

/-- `C` generalizes `D`; since `D` is still unwritten at `C`'s first
emission attempt, `C` is deferred behind `D`. -/
def chainC : UMLClass := ⟨4, "C", [2], [], []⟩

/-- An acyclic model whose traversal order defers `D` and `C`: after the
first pass `D`'s parents are written, but `D` is emitted during the
deferred pass without being recorded as written, so `C` is dropped. -/
def chainModel : List UMLClass := [chainR, chainA, chainD, chainB, chainC]

/-- Class `A` of the two-cycle model: it generalizes `B`. -/
def cycleA : UMLClass := ⟨0, "A", [1], [], []⟩

/-- Class `B` of the two-cycle model: it generalizes `A`. -/
def cycleB : UMLClass := ⟨1, "B", [0], [], []⟩

/-- Two classes that generalize each other. -/
def cycleModel : List UMLClass := [cycleA, cycleB]

/-- A model containing a single class whose name is the empty string, on
which the tilde filter's `cls.name[0]` raises `IndexError`. -/
def emptyNameModel : List UMLClass := [⟨0, "", [], [], []⟩]

/-! ### Helper lemmas -/

/-- `write_class_signature` written as a single parent-satisfaction check:
the class is emitted (with its signature and attribute lines) exactly when
every base-class name is already written — the empty-base case is the
vacuous instance of the check. -/
theorem write_class_signature_eq (trees : List (UMLClass × List UMLClass)) (cls : UMLClass)
    (w : List String) :
    write_class_signature trees cls w =
      if (baseNames trees cls).all (fun n => w.contains n) then
        (true, Line.classDef cls.name (baseNames trees cls) :: write_attributes cls)
      else (false, []) := by
  unfold write_class_signature
  dsimp only
  cases h : baseNames trees cls with
  | nil => simp
  | cons x xs =>
    by_cases hall : (x :: xs).all (fun n => w.contains n) = true <;> simp [hall]

/-- Every line produced by `write_attributes` is neutral: it neither
defines nor imports a class name. -/
theorem write_attributes_neutral (cls : UMLClass) :
    ∀ l ∈ write_attributes cls, neutralLine l = true := by
  intro l hl
  unfold write_attributes at hl
  dsimp only at hl
  split at hl
  · simp only [List.mem_singleton] at hl
    subst hl
    rfl
  · simp only [List.mem_append, List.mem_map, List.mem_filterMap] at hl
    rcases hl with (⟨a, _, rfl⟩ | ⟨a, _, ha⟩) | ⟨o, _, rfl⟩
    · rfl
    · cases han : a.name with
      | none =>
        simp only [han] at ha
        exact Option.noConfusion ha
      | some n =>
        simp only [han] at ha
        split at ha
        · injection ha with ha'
          subst ha'
          rfl
        · exact Option.noConfusion ha
    · rfl

/-- Neutral lines add no names to the `seenAfter` accumulator. -/
theorem seenAfter_neutral (ls : List Line) (h : ∀ l ∈ ls, neutralLine l = true) :
    ∀ seen, seenAfter seen ls = seen := by
  induction ls with
  | nil => intro seen; rfl
  | cons l rest ih =>
    intro seen
    have hl := h l (List.mem_cons_self l rest)
    have hrest : ∀ l ∈ rest, neutralLine l = true := fun x hx => h x (List.mem_cons_of_mem l hx)
    cases l <;> simp_all [neutralLine, seenAfter]

/-- `seenAfter` distributes over list append. -/
theorem seenAfter_append (l1 l2 : List Line) :
    ∀ seen, seenAfter seen (l1 ++ l2) = seenAfter (seenAfter seen l1) l2 := by
  induction l1 with
  | nil => intro seen; rfl
  | cons l rest ih => intro seen; cases l <;> simp [seenAfter, ih]

/-- A block of neutral lines is skipped by the parent-precedence check. -/
theorem parentsPrecedeAux_neutral (ls : List Line) (h : ∀ l ∈ ls, neutralLine l = true) :
    ∀ seen rest, parentsPrecedeAux seen (ls ++ rest) = parentsPrecedeAux seen rest := by
  induction ls with
  | nil => intro seen rest; rfl
  | cons l tail ih =>
    intro seen rest
    have hl := h l (List.mem_cons_self l tail)
    have htail : ∀ l ∈ tail, neutralLine l = true := fun x hx => h x (List.mem_cons_of_mem l hx)
    cases l <;> simp_all [neutralLine, parentsPrecedeAux]

/-- Lifting a successful `all`-containment check along a set inclusion. -/
theorem all_contains_mono {ps w seen : List String}
    (h : ps.all (fun n => w.contains n) = true) (hsub : ∀ n ∈ w, n ∈ seen) :
    ps.all (fun n => seen.contains n) = true := by
  rw [List.all_eq_true] at h ⊢
  intro n hn
  have := h n hn
  rw [List.elem_iff] at this ⊢
  exact hsub n this

/-- Deferred classes come from the scheduled list. -/
theorem passOne_deferred_sub (trees : List (UMLClass × List UMLClass)) :
    ∀ (cs : List UMLClass) (w : List String) (c : UMLClass),
      c ∈ (passOne trees cs w).2.1 → c ∈ cs := by
  intro cs
  induction cs with
  | nil => intro w c hc; simp [passOne] at hc
  | cons cls rest ih =>
    intro w c hc
    unfold passOne at hc
    dsimp only at hc
    split at hc
    · exact List.mem_cons_of_mem _ (ih _ _ hc)
    · split at hc
      · exact List.mem_cons_of_mem _ (ih _ _ hc)
      · rcases List.mem_cons.mp hc with rfl | h
        · exact List.mem_cons_self _ _
        · exact List.mem_cons_of_mem _ (ih _ _ h)

/-- Names in the written set after the first pass were written before it or
belong to a scheduled class. -/
theorem passOne_written_sub (trees : List (UMLClass × List UMLClass)) :
    ∀ (cs : List UMLClass) (w : List String) (n : String),
      n ∈ (passOne trees cs w).1 → n ∈ w ∨ ∃ c ∈ cs, n = c.name := by
  intro cs
  induction cs with
  | nil => intro w n hn; simp [passOne] at hn; exact Or.inl hn
  | cons cls rest ih =>
    intro w n hn
    unfold passOne at hn
    dsimp only at hn
    split at hn
    · rcases ih _ _ hn with h | ⟨c, hc, rfl⟩
      · exact Or.inl h
      · exact Or.inr ⟨c, List.mem_cons_of_mem _ hc, rfl⟩
    · split at hn
      · rcases ih _ _ hn with h | ⟨c, hc, rfl⟩
        · rcases List.mem_cons.mp h with rfl | h'
          · exact Or.inr ⟨cls, List.mem_cons_self _ _, rfl⟩
          · exact Or.inl h'
        · exact Or.inr ⟨c, List.mem_cons_of_mem _ hc, rfl⟩
      · rcases ih _ _ hn with h | ⟨c, hc, rfl⟩
        · exact Or.inl h
        · exact Or.inr ⟨c, List.mem_cons_of_mem _ hc, rfl⟩

/-- The written set only grows during the first pass. -/
theorem passOne_written_mono (trees : List (UMLClass × List UMLClass)) :
    ∀ (cs : List UMLClass) (w : List String) (n : String),
      n ∈ w → n ∈ (passOne trees cs w).1 := by
  intro cs
  induction cs with
  | nil => intro w n hn; simpa [passOne] using hn
  | cons cls rest ih =>
    intro w n hn
    unfold passOne
    dsimp only
    split
    · exact ih _ _ hn
    · split
      · exact ih _ _ (List.mem_cons_of_mem _ hn)
      · exact ih _ _ hn

/-- A deferred class's name is never in the written set produced by the
first pass, provided the scheduled classes have pairwise distinct names. -/
theorem passOne_deferred_not_written (trees : List (UMLClass × List UMLClass)) :
    ∀ (cs : List UMLClass) (w : List String) (c : UMLClass),
      (cs.map (fun x => x.name)).Nodup →
      c ∈ (passOne trees cs w).2.1 → c.name ∉ (passOne trees cs w).1 := by
  intro cs
  induction cs with
  | nil => intro w c _ hc; simp [passOne] at hc
  | cons cls rest ih =>
    intro w c hnd hc
    have hnd' : (rest.map (fun x => x.name)).Nodup := (List.nodup_cons.mp hnd).2
    have hhead : cls.name ∉ rest.map (fun x => x.name) := (List.nodup_cons.mp hnd).1
    unfold passOne at hc ⊢
    dsimp only at hc ⊢
    by_cases hcont : (w.contains cls.name) = true
    · rw [if_pos hcont] at hc ⊢
      exact ih _ _ hnd' hc
    · rw [if_neg hcont] at hc ⊢
      by_cases hfst : (write_class_signature trees cls w).fst = true
      · rw [if_pos hfst] at hc ⊢
        exact ih _ _ hnd' hc
      · rw [if_neg hfst] at hc ⊢
        rcases List.mem_cons.mp hc with rfl | h
        · intro habs
          rcases passOne_written_sub trees rest w c.name habs with hw | ⟨c', hc', he⟩
          · rw [← List.elem_iff] at hw
            exact hcont hw
          · exact hhead (he ▸ List.mem_map_of_mem (fun x => x.name) hc')
        · exact ih _ _ hnd' h

/-- `classDefNames` distributes over append. -/
theorem classDefNames_append (l1 l2 : List Line) :
    classDefNames (l1 ++ l2) = classDefNames l1 ++ classDefNames l2 :=
  List.filterMap_append l1 l2 _

/-- `importNames` distributes over append. -/
theorem importNames_append (l1 l2 : List Line) :
    importNames (l1 ++ l2) = importNames l1 ++ importNames l2 :=
  List.filterMap_append l1 l2 _

/-- Neutral lines contribute no class-definition names. -/
theorem classDefNames_neutral (ls : List Line) (h : ∀ l ∈ ls, neutralLine l = true) :
    classDefNames ls = [] := by
  induction ls with
  | nil => rfl
  | cons l rest ih =>
    have hl := h l (List.mem_cons_self l rest)
    have hrest := fun x hx => h x (List.mem_cons_of_mem l hx)
    cases l <;> simp_all [neutralLine, classDefNames]

/-- Neutral lines contribute no import names. -/
theorem importNames_neutral (ls : List Line) (h : ∀ l ∈ ls, neutralLine l = true) :
    importNames ls = [] := by
  induction ls with
  | nil => rfl
  | cons l rest ih =>
    have hl := h l (List.mem_cons_self l rest)
    have hrest := fun x hx => h x (List.mem_cons_of_mem l hx)
    cases l <;> simp_all [neutralLine, importNames]

/-- When `write_class_signature` reports success, its output is the class
signature followed by the attribute block, and every base name was already
written. -/
theorem write_class_signature_of_fst_true (trees : List (UMLClass × List UMLClass))
    (cls : UMLClass) (w : List String)
    (h : (write_class_signature trees cls w).fst = true) :
    (write_class_signature trees cls w).snd =
      Line.classDef cls.name (baseNames trees cls) :: write_attributes cls ∧
    (baseNames trees cls).all (fun n => w.contains n) = true := by
  rw [write_class_signature_eq] at h ⊢
  by_cases hall : (baseNames trees cls).all (fun n => w.contains n) = true
  · rw [if_pos hall]
    exact ⟨rfl, hall⟩
  · rw [if_neg hall] at h
    simp at h

/-- When `write_class_signature` reports failure, it wrote nothing and some
base name was missing. -/
theorem write_class_signature_of_fst_false (trees : List (UMLClass × List UMLClass))
    (cls : UMLClass) (w : List String)
    (h : (write_class_signature trees cls w).fst = false) :
    (write_class_signature trees cls w).snd = [] ∧
    (baseNames trees cls).all (fun n => w.contains n) = false := by
  rw [write_class_signature_eq] at h ⊢
  by_cases hall : (baseNames trees cls).all (fun n => w.contains n) = true
  · rw [if_pos hall] at h
    simp at h
  · rw [if_neg hall]
    exact ⟨rfl, Bool.eq_false_iff.mpr hall⟩

/-- The class-definition names of a signature block are just the class's
own name. -/
theorem classDefNames_sig (cls : UMLClass) (bs : List String) :
    classDefNames (Line.classDef cls.name bs :: write_attributes cls) = [cls.name] := by
  have h : Line.classDef cls.name bs :: write_attributes cls =
      [Line.classDef cls.name bs] ++ write_attributes cls := rfl
  rw [h, classDefNames_append, classDefNames_neutral _ (write_attributes_neutral cls),
    List.append_nil]
  rfl

/-- A signature block contains no import line. -/
theorem importNames_sig (cls : UMLClass) (bs : List String) :
    importNames (Line.classDef cls.name bs :: write_attributes cls) = [] := by
  have h : Line.classDef cls.name bs :: write_attributes cls =
      [Line.classDef cls.name bs] ++ write_attributes cls := rfl
  rw [h, importNames_append, importNames_neutral _ (write_attributes_neutral cls),
    List.append_nil]
  rfl

/-- Class-definition names written by the first pass name scheduled
classes. -/
theorem passOne_classDefNames_sub (trees : List (UMLClass × List UMLClass)) :
    ∀ (cs : List UMLClass) (w : List String) (n : String),
      n ∈ classDefNames (passOne trees cs w).2.2 → ∃ c ∈ cs, n = c.name := by
  intro cs
  induction cs with
  | nil => intro w n hn; simp [passOne, classDefNames] at hn
  | cons cls rest ih =>
    intro w n hn
    unfold passOne at hn
    dsimp only at hn
    by_cases hcont : (w.contains cls.name) = true
    · rw [if_pos hcont] at hn
      obtain ⟨c, hc, rfl⟩ := ih _ _ hn
      exact ⟨c, List.mem_cons_of_mem _ hc, rfl⟩
    · rw [if_neg hcont] at hn
      by_cases hfst : (write_class_signature trees cls w).fst = true
      · rw [if_pos hfst] at hn
        obtain ⟨hsnd, -⟩ := write_class_signature_of_fst_true trees cls w hfst
        rw [hsnd, classDefNames_append] at hn
        rcases List.mem_append.mp hn with h1 | h2
        · rw [classDefNames_sig, List.mem_singleton] at h1
          exact ⟨cls, List.mem_cons_self _ _, h1⟩
        · obtain ⟨c, hc, rfl⟩ := ih _ _ h2
          exact ⟨c, List.mem_cons_of_mem _ hc, rfl⟩
      · rw [if_neg hfst] at hn
        obtain ⟨c, hc, rfl⟩ := ih _ _ hn
        exact ⟨c, List.mem_cons_of_mem _ hc, rfl⟩

/-- The first pass writes no import lines. -/
theorem passOne_importNames (trees : List (UMLClass × List UMLClass)) :
    ∀ (cs : List UMLClass) (w : List String),
      importNames (passOne trees cs w).2.2 = [] := by
  intro cs
  induction cs with
  | nil => intro w; rfl
  | cons cls rest ih =>
    intro w
    unfold passOne
    dsimp only
    by_cases hcont : (w.contains cls.name) = true
    · rw [if_pos hcont]
      exact ih _
    · rw [if_neg hcont]
      by_cases hfst : (write_class_signature trees cls w).fst = true
      · rw [if_pos hfst]
        obtain ⟨hsnd, -⟩ := write_class_signature_of_fst_true trees cls w hfst
        rw [importNames_append, hsnd, ih, importNames_sig]
        rfl
      · rw [if_neg hfst]
        exact ih _

/-- Class-definition names written by the deferred pass name deferred
classes. -/
theorem passTwo_classDefNames_sub (trees : List (UMLClass × List UMLClass)) :
    ∀ (d : List UMLClass) (w : List String) (n : String),
      n ∈ classDefNames (passTwo trees d w) → ∃ c ∈ d, n = c.name := by
  intro d
  induction d with
  | nil => intro w n hn; simp [passTwo, classDefNames] at hn
  | cons c rest ih =>
    intro w n hn
    unfold passTwo at hn
    rw [List.flatMap_cons, classDefNames_append] at hn
    rcases List.mem_append.mp hn with h1 | h2
    · by_cases hfst : (write_class_signature trees c w).fst = true
      · obtain ⟨hsnd, -⟩ := write_class_signature_of_fst_true trees c w hfst
        rw [hsnd, classDefNames_sig, List.mem_singleton] at h1
        exact ⟨c, List.mem_cons_self _ _, h1⟩
      · obtain ⟨hsnd, -⟩ := write_class_signature_of_fst_false trees c w
          (Bool.eq_false_iff.mpr hfst)
        rw [hsnd] at h1
        simp [classDefNames] at h1
    · obtain ⟨c', hc', rfl⟩ := ih _ _ h2
      exact ⟨c', List.mem_cons_of_mem _ hc', rfl⟩

/-- The deferred pass writes no import lines. -/
theorem passTwo_importNames (trees : List (UMLClass × List UMLClass)) :
    ∀ (d : List UMLClass) (w : List String),
      importNames (passTwo trees d w) = [] := by
  intro d
  induction d with
  | nil => intro w; rfl
  | cons c rest ih =>
    intro w
    unfold passTwo
    rw [List.flatMap_cons, importNames_append]
    have h2 := ih w
    unfold passTwo at h2
    rw [h2]
    by_cases hfst : (write_class_signature trees c w).fst = true
    · obtain ⟨hsnd, -⟩ := write_class_signature_of_fst_true trees c w hfst
      rw [hsnd, importNames_sig]
      rfl
    · obtain ⟨hsnd, -⟩ := write_class_signature_of_fst_false trees c w
        (Bool.eq_false_iff.mpr hfst)
      rw [hsnd]
      rfl

/-- `seenAfter` only ever adds names. -/
theorem seenAfter_sub (ls : List Line) :
    ∀ (seen : List String) (n : String), n ∈ seen → n ∈ seenAfter seen ls := by
  induction ls with
  | nil => intro seen n hn; exact hn
  | cons l rest ih =>
    intro seen n hn
    cases l <;> simp only [seenAfter] <;>
      first
        | exact ih _ _ hn
        | exact ih _ _ (List.mem_cons_of_mem _ hn)

/-- Import lines always pass the precedence check, and afterwards every
imported name has been seen. -/
theorem imports_precede (us : List UMLClass) :
    ∀ (seen : List String) (rest : List Line),
      parentsPrecedeAux seen ((us.map fun c => Line.importLine c.name) ++ rest) =
        parentsPrecedeAux (seenAfter seen (us.map fun c => Line.importLine c.name)) rest ∧
      ∀ c ∈ us, c.name ∈ seenAfter seen (us.map fun c => Line.importLine c.name) := by
  induction us with
  | nil => intro seen rest; exact ⟨rfl, by simp⟩
  | cons u us ih =>
    intro seen rest
    refine ⟨(ih (u.name :: seen) rest).1, ?_⟩
    intro c hc
    have hstep : seenAfter seen ((u :: us).map fun c => Line.importLine c.name) =
        seenAfter (u.name :: seen) (us.map fun c => Line.importLine c.name) := rfl
    rw [hstep]
    rcases List.mem_cons.mp hc with rfl | hc'
    · exact seenAfter_sub _ _ _ (List.mem_cons_self _ _)
    · exact (ih (u.name :: seen) rest).2 c hc'

/-- The lines written by the first pass always satisfy the parent-precedence
check (every parent was in the written set, and the written set only holds
seen names), and afterwards the final written set is contained in the seen
names. -/
theorem passOne_precede (trees : List (UMLClass × List UMLClass)) :
    ∀ (cs : List UMLClass) (w seen : List String) (rest : List Line),
      (∀ n ∈ w, n ∈ seen) →
      parentsPrecedeAux seen ((passOne trees cs w).2.2 ++ rest) =
        parentsPrecedeAux (seenAfter seen (passOne trees cs w).2.2) rest ∧
      ∀ n ∈ (passOne trees cs w).1, n ∈ seenAfter seen (passOne trees cs w).2.2 := by
  intro cs
  induction cs with
  | nil =>
    intro w seen rest hsub
    exact ⟨rfl, hsub⟩
  | cons cls rest' ih =>
    intro w seen rest hsub
    unfold passOne
    dsimp only
    by_cases hcont : (w.contains cls.name) = true
    · rw [if_pos hcont]
      exact ih _ _ _ hsub
    · rw [if_neg hcont]
      by_cases hfst : (write_class_signature trees cls w).fst = true
      · rw [if_pos hfst]
        obtain ⟨hsnd, hall⟩ := write_class_signature_of_fst_true trees cls w hfst
        rw [hsnd]
        have hsub' : ∀ n ∈ cls.name :: w, n ∈ cls.name :: seen := by
          intro n hn
          rcases List.mem_cons.mp hn with rfl | hn'
          · exact List.mem_cons_self _ _
          · exact List.mem_cons_of_mem _ (hsub n hn')
        have hall' := all_contains_mono hall hsub
        have key := ih (cls.name :: w) (cls.name :: seen) rest hsub'
        constructor
        · have hshape :
              (Line.classDef cls.name (baseNames trees cls) :: write_attributes cls) ++
                  (passOne trees rest' (cls.name :: w)).2.2 ++ rest =
                Line.classDef cls.name (baseNames trees cls) ::
                  (write_attributes cls ++
                    ((passOne trees rest' (cls.name :: w)).2.2 ++ rest)) := by
            simp
          rw [hshape]
          show ((baseNames trees cls).all (fun p => seen.contains p) &&
              parentsPrecedeAux (cls.name :: seen)
                (write_attributes cls ++ ((passOne trees rest' (cls.name :: w)).2.2 ++ rest))) =
            _
          rw [hall', Bool.true_and,
            parentsPrecedeAux_neutral _ (write_attributes_neutral cls), (key).1]
          have hseen : seenAfter seen
              ((Line.classDef cls.name (baseNames trees cls) :: write_attributes cls) ++
                (passOne trees rest' (cls.name :: w)).2.2) =
              seenAfter (cls.name :: seen) (passOne trees rest' (cls.name :: w)).2.2 := by
            rw [seenAfter_append]
            show seenAfter (seenAfter (cls.name :: seen) (write_attributes cls)) _ = _
            rw [seenAfter_neutral _ (write_attributes_neutral cls)]
          rw [hseen]
        · intro n hn
          have hseen : seenAfter seen
              ((Line.classDef cls.name (baseNames trees cls) :: write_attributes cls) ++
                (passOne trees rest' (cls.name :: w)).2.2) =
              seenAfter (cls.name :: seen) (passOne trees rest' (cls.name :: w)).2.2 := by
            rw [seenAfter_append]
            show seenAfter (seenAfter (cls.name :: seen) (write_attributes cls)) _ = _
            rw [seenAfter_neutral _ (write_attributes_neutral cls)]
          rw [hseen]
          exact (key).2 n hn
      · rw [if_neg hfst]
        exact ih _ _ _ hsub

/-- The deferred pass always satisfies the parent-precedence check: a
deferred class is emitted only when all its parent names are in the written
set, which consists of seen names only. -/
theorem passTwo_precede (trees : List (UMLClass × List UMLClass)) :
    ∀ (d : List UMLClass) (w seen : List String),
      (∀ n ∈ w, n ∈ seen) →
      parentsPrecedeAux seen (passTwo trees d w) = true := by
  intro d
  induction d with
  | nil => intro w seen _; rfl
  | cons c rest ih =>
    intro w seen hsub
    unfold passTwo
    rw [List.flatMap_cons]
    have htail := ih w
    unfold passTwo at htail
    by_cases hfst : (write_class_signature trees c w).fst = true
    · obtain ⟨hsnd, hall⟩ := write_class_signature_of_fst_true trees c w hfst
      rw [hsnd]
      have hshape :
          (Line.classDef c.name (baseNames trees c) :: write_attributes c) ++
              rest.flatMap (fun cls => (write_class_signature trees cls w).snd) =
            Line.classDef c.name (baseNames trees c) ::
              (write_attributes c ++
                rest.flatMap (fun cls => (write_class_signature trees cls w).snd)) := by
        simp
      rw [hshape]
      show ((baseNames trees c).all (fun p => seen.contains p) &&
          parentsPrecedeAux (c.name :: seen)
            (write_attributes c ++
              rest.flatMap (fun cls => (write_class_signature trees cls w).snd))) = true
      rw [all_contains_mono hall hsub, Bool.true_and,
        parentsPrecedeAux_neutral _ (write_attributes_neutral c)]
      exact htail (c.name :: seen) (fun n hn => List.mem_cons_of_mem _ (hsub n hn))
    · obtain ⟨hsnd, -⟩ := write_class_signature_of_fst_false trees c w
        (Bool.eq_false_iff.mpr hfst)
      rw [hsnd, List.nil_append]
      exact htail seen hsub

/-- Tree entries are exactly the input classes paired with their combined
parent lists. -/
theorem create_class_trees_mem (model classes : List UMLClass)
    (p : UMLClass × List UMLClass) (hp : p ∈ create_class_trees model classes) :
    p.fst ∈ classes ∧ p.snd = parentsOfIn model p.fst := by
  obtain ⟨cls, hc, he⟩ := List.mem_map.mp hp
  subst he
  exact ⟨hc, rfl⟩

/-- Root nodes are tree keys with an empty parent list that are
referenced. -/
theorem find_root_nodes_mem (trees : List (UMLClass × List UMLClass))
    (referenced : List UMLClass) (x : UMLClass) (hx : x ∈ find_root_nodes trees referenced) :
    ∃ p ∈ trees, x = p.fst ∧ p.snd = [] ∧ x ∈ referenced := by
  unfold find_root_nodes at hx
  obtain ⟨p, hp, he⟩ := List.mem_map.mp hx
  obtain ⟨hpt, hpc⟩ := List.mem_filter.mp hp
  rw [Bool.and_eq_true] at hpc
  refine ⟨p, hpt, he.symm, ?_, ?_⟩
  · exact List.isEmpty_iff.mp hpc.1
  · rw [← he]
    exact List.elem_iff.mp (he ▸ hpc.2)

/-- Every node the breadth-first loop returns was already explored, was on
the queue, or is a tree key with a non-empty parent list (the only nodes
ever enqueued as neighbors). -/
theorem bfsAux_mem (trees : List (UMLClass × List UMLClass)) :
    ∀ (fuel : Nat) (queue explored : List UMLClass) (x : UMLClass),
      x ∈ bfsAux trees fuel queue explored →
      x ∈ explored ∨ x ∈ queue ∨ ∃ p ∈ trees, x = p.fst ∧ p.snd ≠ [] := by
  intro fuel
  induction fuel with
  | zero =>
    intro queue explored x hx
    simp only [bfsAux, List.mem_reverse] at hx
    exact Or.inl hx
  | succ fuel ih =>
    intro queue explored x hx
    cases queue with
    | nil =>
      simp only [bfsAux, List.mem_reverse] at hx
      exact Or.inl hx
    | cons node rest =>
      unfold bfsAux at hx
      by_cases hc : (explored.contains node) = true
      · rw [if_pos hc] at hx
        rcases ih _ _ _ hx with h | h | h
        · exact Or.inl h
        · exact Or.inr (Or.inl (List.mem_cons_of_mem _ h))
        · exact Or.inr (Or.inr h)
      · rw [if_neg hc] at hx
        rcases ih _ _ _ hx with h | h | h
        · rcases List.mem_cons.mp h with rfl | h'
          · exact Or.inr (Or.inl (List.mem_cons_self _ _))
          · exact Or.inl h'
        · rcases List.mem_append.mp h with h' | h'
          · exact Or.inr (Or.inl (List.mem_cons_of_mem _ h'))
          · refine Or.inr (Or.inr ?_)
            unfold neighborsOf at h'
            obtain ⟨p, hp, hpe⟩ := List.mem_map.mp h'
            obtain ⟨hpt, hpc⟩ := List.mem_filter.mp hp
            exact ⟨p, hpt, hpe.symm,
              List.ne_nil_of_mem (List.elem_iff.mp hpc)⟩
        · exact Or.inr (Or.inr h)

/-- Every node the breadth-first search returns is a root or a tree key
with a non-empty parent list. -/
theorem breadth_first_search_mem (trees : List (UMLClass × List UMLClass))
    (roots : List UMLClass) (x : UMLClass) (hx : x ∈ breadth_first_search trees roots) :
    x ∈ roots ∨ ∃ p ∈ trees, x = p.fst ∧ p.snd ≠ [] := by
  rcases bfsAux_mem trees _ _ _ _ hx with h | h | h
  · simp at h
  · exact Or.inl h
  · exact Or.inr h

/-- The breadth-first loop never records the same node twice. -/
theorem bfsAux_nodup (trees : List (UMLClass × List UMLClass)) :
    ∀ (fuel : Nat) (queue explored : List UMLClass),
      explored.Nodup → (bfsAux trees fuel queue explored).Nodup := by
  intro fuel
  induction fuel with
  | zero => intro queue explored h; simpa [bfsAux] using h
  | succ fuel ih =>
    intro queue explored h
    cases queue with
    | nil => simpa [bfsAux] using h
    | cons node rest =>
      unfold bfsAux
      by_cases hc : (explored.contains node) = true
      · rw [if_pos hc]
        exact ih _ _ h
      · rw [if_neg hc]
        refine ih _ _ (List.nodup_cons.mpr ⟨?_, h⟩)
        intro habs
        exact hc (List.elem_iff.mpr habs)

/-- Every class the scheduler returns survives the tilde filter. -/
theorem foundOf_sub (m : List UMLClass) (x : UMLClass) (hx : x ∈ foundOf m) :
    x ∈ classesOf m := by
  rcases breadth_first_search_mem _ _ _ hx with h | ⟨p, hp, rfl, -⟩
  · obtain ⟨p, hp, rfl, -, -⟩ := find_root_nodes_mem _ _ _ h
    exact (create_class_trees_mem _ _ _ hp).1
  · exact (create_class_trees_mem _ _ _ hp).1

/-- The scheduler returns each class at most once. -/
theorem foundOf_nodup (m : List UMLClass) : (foundOf m).Nodup :=
  bfsAux_nodup _ _ _ _ List.nodup_nil

/-- Classes surviving the tilde filter are classes of the model. -/
theorem classesOf_sub (m : List UMLClass) (x : UMLClass) (hx : x ∈ classesOf m) : x ∈ m :=
  (List.mem_filter.mp hx).1

/-- Names are injective on a model whose name list has no duplicates. -/
theorem name_inj_of_nodup (m : List UMLClass) (hnd : (m.map (fun x => x.name)).Nodup)
    (a b : UMLClass) (ha : a ∈ m) (hb : b ∈ m) (he : a.name = b.name) : a = b :=
  List.inj_on_of_nodup_map hnd ha hb he

/-- A leading header line changes no class-definition names. -/
theorem classDefNames_header_cons (ls : List Line) :
    classDefNames (Line.header :: ls) = classDefNames ls := rfl

/-- A leading header line changes no import names. -/
theorem importNames_header_cons (ls : List Line) :
    importNames (Line.header :: ls) = importNames ls := rfl

/-- Import lines contribute no class-definition names. -/
theorem classDefNames_imports (us : List UMLClass) :
    classDefNames (us.map fun c => Line.importLine c.name) = [] := by
  induction us with
  | nil => rfl
  | cons u us ih => exact ih

/-- The import block's names are the imported classes' names. -/
theorem importNames_imports (us : List UMLClass) :
    importNames (us.map fun c => Line.importLine c.name) = us.map fun c => c.name := by
  induction us with
  | nil => rfl
  | cons u us ih =>
    show u.name :: importNames (us.map fun c => Line.importLine c.name) = _
    rw [ih, List.map_cons]

/-- Dictionary lookup in a freshly built class tree returns the combined
parent list of the looked-up class. -/
theorem treeLookup_create (model : List UMLClass) :
    ∀ (classes : List UMLClass) (cls : UMLClass), cls ∈ classes →
      treeLookup (create_class_trees model classes) cls = parentsOfIn model cls := by
  intro classes
  induction classes with
  | nil => intro cls h; simp at h
  | cons c' rest ih =>
    intro cls h
    by_cases he : c' = cls
    · subst he
      unfold treeLookup create_class_trees
      rw [List.map_cons, List.find?_cons_of_pos _ (by simp)]
      rfl
    · have hmem : cls ∈ rest := by
        rcases List.mem_cons.mp h with h' | h'
        · exact absurd h'.symm he
        · exact h'
      have hstep : treeLookup (create_class_trees model (c' :: rest)) cls =
          treeLookup (create_class_trees model rest) cls := by
        unfold treeLookup create_class_trees
        rw [List.map_cons, List.find?_cons_of_neg _ (by simp [he])]
      rw [hstep]
      exact ih cls hmem

/-! ### Type-mapping properties (claims C6 and C7) -/

/-- C6 (counterexample): `type_converter` is not case-insensitive on its
type name — `"MoodKind"` and its case variant `"MOODKIND"` have equal
lower-casings, yet the first maps to no type while the second is passed
through verbatim, because the enumeration-marker suffix check
`endswith("Kind")` is case-sensitive. -/
theorem c6_counterexample :
    lowerStr "MoodKind" = lowerStr "MOODKIND" ∧
    type_converter ⟨none, some "MoodKind", false, none⟩ = none ∧
    type_converter ⟨none, some "MOODKIND", false, none⟩ = some "MOODKIND" :=
  ⟨by decide, by decide, by decide⟩

/-- C6 (amended): `type_converter` is case-insensitive exactly on the four
primitive type names — whenever two present type names have the same
lower-casing and that lower-casing is `boolean`, `integer`,
`unlimitednatural` or `string`, the converted types agree; the
enumeration-marker rule is case-sensitive (see the counterexample). -/
theorem c6_amended_primitive_case_insensitive (a b : ModelAttribute) (s t : String)
    (ha : a.typeValue = some s) (hb : b.typeValue = some t)
    (hlow : lowerStr s = lowerStr t)
    (hprim : lowerStr s = "boolean" ∨ lowerStr s = "integer" ∨
      lowerStr s = "unlimitednatural" ∨ lowerStr s = "string") :
    type_converter a = type_converter b := by
  unfold type_converter
  rw [ha, hb]
  have hlow' := hlow.symm
  rcases hprim with h | h | h | h <;>
    · have ht : lowerStr t = lowerStr s := hlow'
      rw [h] at ht
      simp [h, ht]

/-- Witness for C6 (amended): `"STRING"` and `"String"` are case variants
of a primitive name and both convert to `"str"`. -/
theorem c6_amended_primitive_case_insensitive_witness :
    type_converter ⟨none, some "STRING", false, none⟩ =
      type_converter ⟨none, some "String", false, none⟩ :=
  c6_amended_primitive_case_insensitive ⟨none, some "STRING", false, none⟩
    ⟨none, some "String", false, none⟩ "STRING" "String" rfl rfl (by decide)
    (Or.inr (Or.inr (Or.inr (by decide))))

/-- C7: `type_converter` maps `"String"` to `"str"`; `"Boolean"`,
`"Integer"` and `"UnlimitedNatural"` to `"int"`; `"MoodKind"` to no type;
an absent type name to no type; and any other name — one that is not a
case variant of the four primitives and does not end in the enumeration
markers `"Kind"` or `"Sort"` — is passed through verbatim. -/
theorem c7_type_mapping (a : ModelAttribute) (s : String) :
    (a.typeValue = some "String" → type_converter a = some "str") ∧
    (a.typeValue = some "Boolean" → type_converter a = some "int") ∧
    (a.typeValue = some "Integer" → type_converter a = some "int") ∧
    (a.typeValue = some "UnlimitedNatural" → type_converter a = some "int") ∧
    (a.typeValue = some "MoodKind" → type_converter a = none) ∧
    (a.typeValue = none → type_converter a = none) ∧
    (a.typeValue = some s → lowerStr s ≠ "boolean" → lowerStr s ≠ "integer" →
      lowerStr s ≠ "unlimitednatural" → lowerStr s ≠ "string" →
      endsWithStr s "Kind" = false → endsWithStr s "Sort" = false →
      type_converter a = some s) := by
  refine ⟨?_, ?_, ?_, ?_, ?_, ?_, ?_⟩
  · intro h; unfold type_converter; rw [h]; decide
  · intro h; unfold type_converter; rw [h]; decide
  · intro h; unfold type_converter; rw [h]; decide
  · intro h; unfold type_converter; rw [h]; decide
  · intro h; unfold type_converter; rw [h]; decide
  · intro h; unfold type_converter; rw [h]
  · intro h h1 h2 h3 h4 h5 h6
    unfold type_converter
    rw [h]
    simp [beq_eq_false_iff_ne.mpr h1, beq_eq_false_iff_ne.mpr h2,
      beq_eq_false_iff_ne.mpr h3, beq_eq_false_iff_ne.mpr h4, h5, h6]

/-- Witness for C7: the concrete facts instantiated — `"Foo"` is passed
through verbatim and `"String"` maps to `"str"`. -/
theorem c7_type_mapping_witness :
    type_converter ⟨none, some "Foo", false, none⟩ = some "Foo" ∧
    type_converter ⟨none, some "String", false, none⟩ = some "str" :=
  ⟨(c7_type_mapping ⟨none, some "Foo", false, none⟩ "Foo").2.2.2.2.2.2 rfl (by decide)
      (by decide) (by decide) (by decide) (by decide) (by decide),
    (c7_type_mapping ⟨none, some "String", false, none⟩ "Foo").1 rfl⟩

/-! ### Whole-run behavior on the concrete models (claims C1, C2, C4) -/

/-- C1 (counterexample): in `chainModel` the class `C` is deferred and its
parent `D` is still not in the written set when the deferred pass runs, yet
`C` is not emitted at all — the deferred pass does re-check parent
satisfaction (through `write_class_signature`) and silently skips the
class, instead of force-emitting it with a forward reference. -/
theorem c1_counterexample :
    chainC ∈ (generateModel [] chainModel).deferred ∧
    (baseNames (treesOf chainModel) chainC).all
      (fun n => ((generateModel [] chainModel).written).contains n) = false ∧
    "C" ∉ classDefNames (generateModel [] chainModel).fileLines := by
  decide

/-- C2: on the two-cycle model (`A` generalizes `B`, `B` generalizes `A`)
`generate` does not fail — there is no cycle check at all: neither class is
a root, the traversal finds nothing, the run returns normally, and an
output file containing just the header is written. -/
theorem c2_cycle_completes_without_error :
    (generateModel [] cycleModel).result = Except.ok () ∧
    (generateModel [] cycleModel).fileLines = [Line.header] :=
  ⟨rfl, by decide⟩

/-- C4: `generate` is not atomic — the destination file is opened with
mode `"w"` (created or truncated) and given the header before any graph
work, so when graph building fails (here: `cls.name[0]` raising on an
empty class name) the failed run leaves a non-empty, header-only partial
file visible at the destination path. -/
theorem c4_failure_leaves_partial_file :
    (generateModel [] emptyNameModel).result = Except.error GenError.indexError ∧
    (generateModel [] emptyNameModel).fileLines = [Line.header] ∧
    (generateModel [] emptyNameModel).fileLines ≠ [] :=
  ⟨rfl, rfl, by decide⟩

/-! ### Ordering, framing and construction properties (claims C1, C3, C5,
C8, C9, C10) -/

/-- C1 (amended): the deferred list is walked exactly once, in discovery
order, re-submitting each class to `write_class_signature` against the
written set left by the first pass; that call re-checks parent
satisfaction, emitting the class with the same signature-and-attributes
logic when every parent name is now written and emitting nothing at all
when some parent name is still missing. -/
theorem c1_amended_deferred_pass_rechecks (u : List String) (m : List UMLClass)
    (hne : (m.any fun cls => cls.name.isEmpty) = false) :
    (generateModel u m).fileLines =
      Line.header :: (importsOf u m ++ (passOneOf u m).2.2 ++
        (generateModel u m).deferred.flatMap
          (fun c => (write_class_signature (treesOf m) c ((generateModel u m).written)).snd)) ∧
    ∀ c ∈ (generateModel u m).deferred,
      ((baseNames (treesOf m) c).all
          (fun n => ((generateModel u m).written).contains n) = true →
        (write_class_signature (treesOf m) c ((generateModel u m).written)).snd =
          Line.classDef c.name (baseNames (treesOf m) c) :: write_attributes c) ∧
      ((baseNames (treesOf m) c).all
          (fun n => ((generateModel u m).written).contains n) = false →
        (write_class_signature (treesOf m) c ((generateModel u m).written)).snd = []) := by
  unfold generateModel
  rw [if_neg (by rw [hne]; exact Bool.false_ne_true)]
  dsimp only
  constructor
  · unfold passTwoOf passTwo
    rfl
  · intro c _
    constructor
    · intro hall
      rw [write_class_signature_eq, if_pos hall]
    · intro hall
      rw [write_class_signature_eq, if_neg (by rw [hall]; exact Bool.false_ne_true)]

/-- Witness for C1 (amended): in `chainModel`, deferred `D` has both its
parents written after the first pass and is emitted by the deferred pass,
while deferred `C` still misses its parent `D` and contributes nothing. -/
theorem c1_amended_deferred_pass_rechecks_witness :
    (write_class_signature (treesOf chainModel) chainD
        ((generateModel [] chainModel).written)).snd =
      Line.classDef "D" ["R", "B"] :: write_attributes chainD ∧
    (write_class_signature (treesOf chainModel) chainC
        ((generateModel [] chainModel).written)).snd = [] := by
  have h := c1_amended_deferred_pass_rechecks [] chainModel (by decide)
  constructor
  · have hd := (h.2 chainD (by decide)).1 (by decide)
    exact hd.trans (by decide)
  · exact (h.2 chainC (by decide)).2 (by decide)

/-- C3: for every acyclic input model, the committed output is
topologically sound — every class definition lists only parent names that
were imported or defined strictly earlier in the output (both emission
passes gate on the written set, which only ever holds earlier-defined
names). -/
theorem c3_topological_soundness (u : List String) (m : List UMLClass)
    (hacyc : acyclicModel m = true) :
    parentsPrecede (generateModel u m).fileLines = true := by
  unfold generateModel
  by_cases hne : (m.any fun cls => cls.name.isEmpty) = true
  · rw [if_pos hne]
    rfl
  · rw [if_neg hne]
    show parentsPrecedeAux []
      (importsOf u m ++ (passOneOf u m).2.2 ++ passTwoOf u m) = true
    rw [List.append_assoc]
    unfold importsOf
    rw [(imports_precede (umlClassesOf u m) [] _).1]
    have hw0 : ∀ n ∈ writtenInit u m, n ∈
        seenAfter [] ((umlClassesOf u m).map fun c => Line.importLine c.name) := by
      intro n hn
      obtain ⟨c, hc, rfl⟩ := List.mem_map.mp hn
      exact (imports_precede (umlClassesOf u m) [] []).2 c hc
    have key := passOne_precede (treesOf m) (foundOf m) (writtenInit u m)
      (seenAfter [] ((umlClassesOf u m).map fun c => Line.importLine c.name))
      (passTwoOf u m) hw0
    unfold passOneOf
    rw [key.1]
    unfold passTwoOf passOneOf
    exact passTwo_precede (treesOf m) _ _ _ key.2

/-- Witness for C3: the concrete acyclic chain model generates
topologically sound output. -/
theorem c3_topological_soundness_witness :
    acyclicModel chainModel = true ∧
    parentsPrecede (generateModel [] chainModel).fileLines = true :=
  ⟨by decide, c3_topological_soundness [] chainModel (by decide)⟩

/-- C5: a class with an empty combined parent list that no other class
references is not selected as a root, is never discovered by the
breadth-first traversal, and is never emitted as a class definition. -/
theorem c5_root_exclusion (u : List String) (m : List UMLClass) (c : UMLClass)
    (hc : c ∈ m) (hp : parentsOfIn m c = []) (hr : c ∉ referencedOf m)
    (hnd : (m.map fun x => x.name).Nodup) :
    c ∉ rootsOf m ∧ c ∉ foundOf m ∧
    c.name ∉ classDefNames (generateModel u m).fileLines := by
  have hroot : c ∉ rootsOf m := by
    intro habs
    obtain ⟨-, -, -, -, hrr⟩ := find_root_nodes_mem _ _ _ habs
    exact hr hrr
  have hfound : c ∉ foundOf m := by
    intro habs
    rcases breadth_first_search_mem _ _ _ habs with h | ⟨p, hpt, he, hnn⟩
    · exact hroot h
    · have hval := (create_class_trees_mem _ _ _ hpt).2
      rw [← he] at hval
      rw [hval, hp] at hnn
      exact hnn rfl
  refine ⟨hroot, hfound, ?_⟩
  intro habs
  have hname : ∃ d, d ∈ foundOf m ∧ c.name = d.name := by
    unfold generateModel at habs
    by_cases hne : (m.any fun cls => cls.name.isEmpty) = true
    · rw [if_pos hne] at habs
      simp [classDefNames] at habs
    · rw [if_neg hne] at habs
      dsimp only at habs
      rw [classDefNames_header_cons, classDefNames_append, classDefNames_append] at habs
      unfold importsOf at habs
      rw [classDefNames_imports] at habs
      rcases List.mem_append.mp habs with h1 | h2
      · rcases List.mem_append.mp h1 with h0 | h1'
        · simp at h0
        · obtain ⟨d, hd, he⟩ := passOne_classDefNames_sub _ _ _ _ h1'
          exact ⟨d, hd, he⟩
      · unfold passTwoOf at h2
        obtain ⟨d, hd, he⟩ := passTwo_classDefNames_sub _ _ _ _ h2
        exact ⟨d, passOne_deferred_sub _ _ _ _ hd, he⟩
  obtain ⟨d, hd, he⟩ := hname
  have : d = c :=
    name_inj_of_nodup m hnd d c (classesOf_sub _ _ (foundOf_sub _ _ hd)) hc he.symm
  exact hfound (this ▸ hd)

/-- The orphan class for the C5 witness: no parents, no references. -/
def orphanX : UMLClass := ⟨7, "X", [], [], []⟩

/-- A model holding only the orphan class. -/
def orphanModel : List UMLClass := [orphanX]

/-- Witness for C5: the orphan class is neither a root nor found nor
emitted. -/
theorem c5_root_exclusion_witness :
    orphanX ∉ rootsOf orphanModel ∧ orphanX ∉ foundOf orphanModel ∧
    "X" ∉ classDefNames (generateModel [] orphanModel).fileLines := by
  have h := c5_root_exclusion [] orphanModel orphanX (by decide) (by decide)
    (by decide) (by decide)
  exact ⟨h.1, h.2.1, h.2.2⟩

/-- C8: `create_class_trees` produces exactly one entry per input class, in
input order (so classes with an empty parent list are included), and the
stored parent list is the class's generalization targets in model order
followed by the classes at the opposite end of its `baseClass` extension
associations; as a pure function it cannot mutate its inputs. -/
theorem c8_build_tree (model classes : List UMLClass) (hnd : classes.Nodup) :
    (create_class_trees model classes).length = classes.length ∧
    (create_class_trees model classes).map Prod.fst = classes ∧
    ∀ cls ∈ classes,
      treeLookup (create_class_trees model classes) cls =
        generalClasses model cls ++ get_class_extensions model cls := by
  refine ⟨List.length_map _ _, ?_, ?_⟩
  · unfold create_class_trees
    rw [List.map_map]
    exact List.map_id' classes
  · intro cls hcls
    exact treeLookup_create model classes cls hcls

/-- Witness for C8: the chain model's tree has one entry per class and `D`
maps to its two generalization targets. -/
theorem c8_build_tree_witness :
    (create_class_trees chainModel chainModel).length = chainModel.length ∧
    treeLookup (create_class_trees chainModel chainModel) chainD =
      generalClasses chainModel chainD ++ get_class_extensions chainModel chainD := by
  have h := c8_build_tree chainModel chainModel (by decide)
  exact ⟨h.1, h.2.2 chainD (by decide)⟩

/-- C9: the deferred pass never extends the written set — the run's final
written set is exactly the first pass's written set, so a deferred class is
never recorded as written even when the deferred pass emits it, and a
deferred class one of whose parents is itself deferred (i.e. emitted at
best during the deferred pass) still fails its parent check and produces no
output lines. -/
theorem c9_deferred_pass_adds_nothing (u : List String) (m : List UMLClass)
    (hne : (m.any fun cls => cls.name.isEmpty) = false)
    (hnd : (m.map fun x => x.name).Nodup) :
    (generateModel u m).written = (passOneOf u m).1 ∧
    ∀ c ∈ (generateModel u m).deferred,
      c.name ∉ (generateModel u m).written ∧
      ∀ p ∈ treeLookup (treesOf m) c, p ∈ (generateModel u m).deferred →
        write_class_signature (treesOf m) c ((generateModel u m).written) = (false, []) := by
  unfold generateModel
  rw [if_neg (by rw [hne]; exact Bool.false_ne_true)]
  dsimp only
  refine ⟨rfl, ?_⟩
  intro c hcdef
  have hfnd : ((foundOf m).map (fun x => x.name)).Nodup := by
    refine List.Nodup.map_on ?_ (foundOf_nodup m)
    intro x hx y hy he
    exact name_inj_of_nodup m hnd x y (classesOf_sub _ _ (foundOf_sub _ _ hx))
      (classesOf_sub _ _ (foundOf_sub _ _ hy)) he
  have hnw : c.name ∉ (passOneOf u m).1 :=
    passOne_deferred_not_written (treesOf m) (foundOf m) (writtenInit u m) c hfnd hcdef
  refine ⟨hnw, ?_⟩
  intro p hp hpdef
  have hpnw : p.name ∉ (passOneOf u m).1 :=
    passOne_deferred_not_written (treesOf m) (foundOf m) (writtenInit u m) p hfnd hpdef
  rw [write_class_signature_eq, if_neg ?_]
  intro hall
  rw [List.all_eq_true] at hall
  have := hall p.name (List.mem_map_of_mem _ hp)
  exact hpnw (List.elem_iff.mp this)

/-- Witness for C9: in `chainModel`, deferred `C` is never written, and
since its parent `D` is itself deferred, `C`'s deferred-pass attempt
returns `False` with no output. -/
theorem c9_deferred_pass_adds_nothing_witness :
    "C" ∉ (generateModel [] chainModel).written ∧
    write_class_signature (treesOf chainModel) chainC
      ((generateModel [] chainModel).written) = (false, []) := by
  have h := c9_deferred_pass_adds_nothing [] chainModel (by decide) (by decide)
  have h2 := h.2 chainC (by decide)
  exact ⟨h2.1, h2.2 chainD (by decide) (by decide)⟩

/-- C10: in a model where every class name is non-empty, a class whose name
begins with `~` is removed by the tilde filter before tree construction —
it is not a tree key, is never scheduled, and its name appears in no class
definition and no import line of the generated output. -/
theorem c10_tilde_classes_filtered (u : List String) (m : List UMLClass) (c : UMLClass)
    (hne : (m.all fun x => !x.name.isEmpty) = true)
    (hc : c ∈ m) (ht : c.name.front = '~') :
    c ∉ classesOf m ∧ (∀ p ∈ treesOf m, p.fst ≠ c) ∧ c ∉ foundOf m ∧
    c.name ∉ classDefNames (generateModel u m).fileLines ∧
    c.name ∉ importNames (generateModel u m).fileLines := by
  have hkey : ∀ d ∈ classesOf m, d.name ≠ c.name := by
    intro d hd he
    have hdf := (List.mem_filter.mp hd).2
    rw [he, ht] at hdf
    simp at hdf
  have h1 : c ∉ classesOf m := fun habs => hkey c habs rfl
  have h2 : ∀ p ∈ treesOf m, p.fst ≠ c := by
    intro p hp he
    exact h1 (he ▸ (create_class_trees_mem _ _ _ hp).1)
  have h3 : c ∉ foundOf m := fun habs => h1 (foundOf_sub _ _ habs)
  refine ⟨h1, h2, h3, ?_, ?_⟩
  · intro habs
    unfold generateModel at habs
    by_cases hne' : (m.any fun cls => cls.name.isEmpty) = true
    · rw [if_pos hne'] at habs
      simp [classDefNames] at habs
    · rw [if_neg hne'] at habs
      dsimp only at habs
      rw [classDefNames_header_cons, classDefNames_append, classDefNames_append] at habs
      unfold importsOf at habs
      rw [classDefNames_imports] at habs
      rcases List.mem_append.mp habs with h4 | h5
      · rcases List.mem_append.mp h4 with h0 | h4'
        · simp at h0
        · obtain ⟨d, hd, he⟩ := passOne_classDefNames_sub _ _ _ _ h4'
          exact hkey d (foundOf_sub _ _ hd) he.symm
      · unfold passTwoOf at h5
        obtain ⟨d, hd, he⟩ := passTwo_classDefNames_sub _ _ _ _ h5
        exact hkey d (foundOf_sub _ _ (passOne_deferred_sub _ _ _ _ hd)) he.symm
  · intro habs
    unfold generateModel at habs
    by_cases hne' : (m.any fun cls => cls.name.isEmpty) = true
    · rw [if_pos hne'] at habs
      simp [importNames] at habs
    · rw [if_neg hne'] at habs
      dsimp only at habs
      rw [importNames_header_cons, importNames_append, importNames_append] at habs
      unfold importsOf at habs
      rw [importNames_imports] at habs
      unfold passOneOf at habs
      rw [passOne_importNames] at habs
      unfold passTwoOf passOneOf at habs
      rw [passTwo_importNames] at habs
      rcases List.mem_append.mp habs with h4 | h5
      · rcases List.mem_append.mp h4 with h0 | h4'
        · obtain ⟨d, hd, he⟩ := List.mem_map.mp h0
          have hdc : d ∈ classesOf m := by
            unfold umlClassesOf filter_uml_classes at hd
            exact (List.mem_filter.mp hd).1
          exact hkey d hdc he
        · simp at h4'
      · simp at h5

/-- The tilde-named class of the C10 witness model. -/
def tildeT : UMLClass := ⟨8, "~T", [], [], []⟩

/-- A model holding only the tilde-named class. -/
def tildeModel : List UMLClass := [tildeT]

/-- Witness for C10: the tilde-named class is filtered everywhere. -/
theorem c10_tilde_classes_filtered_witness :
    tildeT ∉ classesOf tildeModel ∧ tildeT ∉ foundOf tildeModel ∧
    "~T" ∉ classDefNames (generateModel [] tildeModel).fileLines := by
  have h := c10_tilde_classes_filtered [] tildeModel tildeT (by decide) (by decide)
    (by decide)
  exact ⟨h.1, h.2.2.1, h.2.2.2.1⟩

end ProfileCoder
